import Mathlib

/-!
Verification of the go-gather archive-extraction core against its
natural-language specification.

The Lean definitions below are a shallow embedding of the Go sources:
`expand/tar/tar.go` (the tar extraction engine `untar`),
`expand/expander.go` (the expander registry),
`internal/helpers/helpers.go` (`IsSafePath`, `ContainsDotDot`,
`ExpandTilde`, `CopyReader`), and the single-file bzip2 expander.

Filesystem side effects are modelled as an explicit trace of actions;
machine integers (Go `int64`, `int`) are modelled as `Int`; paths are
Lean `String`s manipulated through faithful reimplementations of the
Go `path/filepath` lexical functions (`Clean`, `Join`, `Dir`, `Base`,
`Abs`) for Unix separators.
-/

/-! ## String utilities (Go `strings` package operations used by the code) -/

/-- Split a character list at every occurrence of `sep`, keeping empty
fields, as Go `strings.Split` does. Accumulator holds the current field
reversed. -/
def splitCharAux (sep : Char) : List Char → List Char → List (List Char)
  | [], acc => [acc.reverse]
  | c :: cs, acc =>
    if c = sep then acc.reverse :: splitCharAux sep cs []
    else splitCharAux sep cs (c :: acc)

/-- Go `strings.Split(s, sep)` for a one-character separator. -/
def splitChar (sep : Char) (cs : List Char) : List (List Char) :=
  splitCharAux sep cs []

/-- Split `s` on `/`, Go `strings.Split(s, "/")`. -/
def splitSlash (s : String) : List String :=
  (splitChar '/' s.data).map String.mk

/-- Join components with `/` separators, Go `strings.Join(comps, "/")`. -/
def joinSlash : List String → String
  | [] => ""
  | [x] => x
  | x :: xs => x ++ "/" ++ joinSlash xs

/-- Go `strings.FieldsFunc`: split on characters satisfying `p`,
dropping empty fields. -/
def fieldsFuncAux (p : Char → Bool) : List Char → List Char → List (List Char)
  | [], acc => if acc.isEmpty then [] else [acc.reverse]
  | c :: cs, acc =>
    if p c then
      if acc.isEmpty then fieldsFuncAux p cs []
      else acc.reverse :: fieldsFuncAux p cs []
    else fieldsFuncAux p cs (c :: acc)

/-- Go `strings.FieldsFunc(s, p)`. -/
def fieldsFunc (p : Char → Bool) (s : String) : List String :=
  (fieldsFuncAux p s.data []).map String.mk

/-- Whether `pat` is a prefix of any suffix of the list. -/
def listContainsAux (pat : List Char) : List Char → Bool
  | [] => pat.isEmpty
  | c :: cs => pat.isPrefixOf (c :: cs) || listContainsAux pat cs

/-- Go `strings.Contains(s, sub)`: `sub` occurs as a contiguous substring. -/
def strContains (s sub : String) : Bool :=
  listContainsAux sub.data s.data

/-- Go `strings.HasPrefix(s, pre)`. -/
def strHasPre (s pre : String) : Bool :=
  pre.data.isPrefixOf s.data

/-! ## Go `path/filepath` lexical functions (Unix separator) -/

/-- The element-processing loop of Go `filepath.Clean`: `""` and `"."`
elements are dropped, `".."` pops the previous element when possible
(never popping past the root of a rooted path), other elements are
pushed. `out` is the processed stack, most recent first. -/
def cleanAux (rooted : Bool) : List String → List String → List String
  | [], out => out.reverse
  | e :: es, out =>
    if e = "" ∨ e = "." then cleanAux rooted es out
    else if e = ".." then
      match out with
      | o :: os =>
        if o = ".." then cleanAux rooted es (".." :: o :: os)
        else cleanAux rooted es os
      | [] =>
        if rooted then cleanAux rooted es []
        else cleanAux rooted es [".."]
    else cleanAux rooted es (e :: out)

/-- Go `filepath.Clean` for Unix paths. -/
def goClean (p : String) : String :=
  if p = "" then "."
  else
    let rooted := p.data.head? = some '/'
    let comps := cleanAux rooted (splitSlash p) []
    let s := (if rooted then "/" else "") ++ joinSlash comps
    if s = "" then "." else s

/-- Go `filepath.Join(a, b)`: empty elements are skipped, the rest are
joined with `/` and cleaned; all-empty input yields `""`. -/
def goJoin (a b : String) : String :=
  if a = "" then (if b = "" then "" else goClean b)
  else if b = "" then goClean a
  else goClean (a ++ "/" ++ b)

/-- Go `filepath.Dir(p)`: drop the final element, clean the remainder
(`""` cleans to `"."`). -/
def goDir (p : String) : String :=
  goClean (String.mk ((p.data.reverse.dropWhile (· ≠ '/')).reverse))

/-- Go `filepath.Base(p)`: the last element of the path after removing
trailing separators; `""` gives `"."`, an all-separator path gives `"/"`. -/
def goBase (p : String) : String :=
  if p = "" then "."
  else
    let trimmed := (p.data.reverse.dropWhile (· = '/')).reverse
    if trimmed.isEmpty then "/"
    else String.mk ((trimmed.reverse.takeWhile (· ≠ '/')).reverse)

/-- Whether a path is rooted, Go `filepath.IsAbs` on Unix. -/
def goIsAbs (p : String) : Bool :=
  p.data.head? = some '/'

/-- Go `filepath.Abs` relative to working directory `cwd`: a rooted path
is cleaned, otherwise it is joined to `cwd`. -/
def goAbs (cwd p : String) : String :=
  if goIsAbs p then goClean p else goJoin cwd p

/-! ## `internal/helpers/helpers.go` -/

/-- `isSlash` from helpers.go: `r == '/' || r == '\\'`. -/
def isSlash (r : Char) : Bool := r = '/' ∨ r = '\\'

/-- `ContainsDotDot` from helpers.go: a quick substring test for `".."`
followed by a component-wise check, components being split on `/` or `\`
(the Go net/http implementation). -/
def ContainsDotDot (v : String) : Bool :=
  if ¬ strContains v ".." then false
  else (fieldsFunc isSlash v).any (· = "..")

/-- `ExpandTilde` from helpers.go: a path starting with `~` has the tilde
replaced by the user's home directory (joined); fetching the home
directory may fail. `homeDir` stands for `os.UserHomeDir()`. -/
def ExpandTilde (homeDir : Except String String) (path : String) :
    Except String String :=
  if ¬ strHasPre path "~" then .ok path
  else
    match homeDir with
    | .error e => .error ("could not get user home directory: " ++ e)
    | .ok h => .ok (goJoin h (String.mk (path.data.drop 1)))

/-- `IsSafePath` from helpers.go. `ev` stands for
`filepath.EvalSymlinks` (a filesystem operation, abstracted as a
function), `cwd` is the working directory used by `filepath.Abs`.
The destination is made absolute and cleaned and a separator is
appended; the candidate is made absolute and then symlink-resolved;
the check is a string-prefix test. Note that the destination is NOT
symlink-resolved. -/
def IsSafePath (ev : String → Except String String) (cwd : String)
    (filePath dst : String) : Except String Bool :=
  let absDst := goClean (goAbs cwd dst) ++ "/"
  let absFilePath := goAbs cwd filePath
  match ev absFilePath with
  | .error e => .error ("failed to resolve symlinks: " ++ e)
  | .ok resolved =>
    if strHasPre resolved absDst then .ok true
    else .error ("illegal file path: " ++ filePath)

/-- A path `p` is a strict descendant of root `q` when `p` extends `q`
past a separator. -/
def strictDescendant (p q : String) : Bool :=
  strHasPre p (q ++ "/")

/-- Modelled from the spec: `resolveWithinRoot(candidatePath, root)`
resolves the candidate to an absolute, symlink-resolved form AND the
root to an absolute, symlink-resolved form, succeeding exactly when the
resolved candidate is a strict descendant of the resolved root. This is
the specification's description of `IsSafePath`, kept separate so the
two can be compared. -/
def resolveWithinRootSpec (ev : String → Except String String) (cwd : String)
    (filePath dst : String) : Except String Bool :=
  match ev (goAbs cwd dst) with
  | .error e => .error e
  | .ok resolvedRoot =>
    match ev (goAbs cwd filePath) with
    | .error e => .error e
    | .ok resolved =>
      if strictDescendant resolved resolvedRoot then .ok true
      else .error ("illegal file path: " ++ filePath)

/-! ## The safearchive tar reader's name sanitization

`untar` reads entries through `github.com/google/safearchive/tar`, a
drop-in replacement for `archive/tar` whose `Next()` sanitizes the
returned header name. Modelled from the safearchive library (a
dependency, not part of this repository): in its default security mode
the entry name is split on `/` and every empty, `"."` or `".."`
component is dropped, the remainder re-joined with `/`. -/

/-- A path component the safearchive sanitizer drops. -/
def dropComp (c : String) : Bool :=
  c = "" ∨ c = "." ∨ c = ".."

/-- safearchive's default path sanitization of a tar entry name. -/
def sanitizeName (s : String) : String :=
  joinSlash ((splitSlash s).filter (fun c => ¬ dropComp c))

/-! ## `expand/tar/tar.go`: the tar extraction engine `untar` -/

/-- Tar entry type flags distinguished by `untar`: directories
(`tar.TypeDir`, for which `header.FileInfo().IsDir()` is true), regular
files (`tar.TypeReg`), the pax extended-header pseudo-entries
(`tar.TypeXGlobalHeader`, `tar.TypeXHeader`), and every other type flag
(link, symlink, char device, ...), which the engine treats like a file. -/
inductive Typeflag where
  | dir
  | reg
  | xGlobalHeader
  | xHeader
  | other
deriving DecidableEq, Repr

/-- A tar header as consumed by `untar`: `size` is the declared
`header.FileInfo().Size()` (Go `int64`), `mode` the permission bits
reported by `header.FileInfo().Mode()`, and the times are Unix seconds
(`header.AccessTime.Unix()`, `header.ModTime.Unix()`). -/
structure Header where
  name : String
  typeflag : Typeflag
  size : Int
  mode : Int
  accessTime : Int
  modTime : Int
deriving DecidableEq, Repr

/-- Filesystem effects performed by `untar`, in program order:
`mkdirAll` covers both `os.MkdirAll` calls (directory entries, and the
ensure-parent-exists call before a file write), `copyFile` is the
`helpers.CopyReader(tarReader, fPath, umask, fileSizeLimit)` call with
the byte cap it was passed, `chtimes` is `os.Chtimes`, and `chmod` is
the deferred `os.Chmod` of a directory fix-up. -/
inductive TarAction where
  | mkdirAll (path : String) (mode : Int)
  | copyFile (path : String) (mode : Int) (cap : Int)
  | chtimes (path : String) (accessTime modTime : Int)
  | chmod (path : String) (mode : Int)
deriving DecidableEq, Repr

/-- The terminal error returns of `untar`, one per `return fmt.Errorf`
site (IO failures of the host filesystem are not modelled). -/
inductive UntarError where
  | emptyArchive (src : String)
  | tooManyFiles (count limit : Int)
  | sizeLimitExceeded (limit total : Int)
  | expectedFile (src path : String)
  | moreThanOneFile (src : String)
deriving DecidableEq, Repr

/-- The mutable locals of `untar`'s entry loop: the `finished` flag,
the deferred `dirHeaders` queue, and the running `fileSize` and
`filesCount` totals. -/
structure LoopSt where
  finished : Bool
  dirHeaders : List Header
  fileSize : Int
  filesCount : Int
deriving DecidableEq, Repr

/-- The per-iteration increment of `filesCount`, applied (in the source,
at the top of the loop, before `tarReader.Next()`) only when
`filesLimit > 0`. -/
def bumpCount (filesLimit : Int) (st : LoopSt) : LoopSt :=
  if filesLimit > 0 then { st with filesCount := st.filesCount + 1 } else st

/-- The deferred directory fix-up pass after the entry loop: for each
queued directory header, in order, `os.Chmod` with the header's mode and
`os.Chtimes` with the header's times (falling back to `now` when a
recorded Unix time is not positive). -/
def fixupActions (dst : String) (now : Int) : List Header → List TarAction
  | [] => []
  | h :: rest =>
    let path := goJoin dst h.name
    let aT := if h.accessTime > 0 then h.accessTime else now
    let mT := if h.modTime > 0 then h.modTime else now
    .chmod path h.mode :: .chtimes path aT mT :: fixupActions dst now rest

/-- Whether a header is a pax/global extended-header pseudo-entry:
the Go test `header.Typeflag == tar.TypeXGlobalHeader || header.Typeflag
== tar.TypeXHeader`. -/
def isXH (h : Header) : Bool :=
  h.typeflag = .xGlobalHeader ∨ h.typeflag = .xHeader

/-- The outcome of processing one header: continue the loop with the
emitted actions and the updated locals, or halt the call with the
emitted actions and an error. -/
inductive StepRes where
  | cont (acts : List TarAction) (st : LoopSt)
  | halt (acts : List TarAction) (e : UntarError)
deriving DecidableEq, Repr

/-- The body of one `untar` loop iteration for a header `h0` (after the
`filesCount` check): skip extended headers; otherwise the name arrives
sanitized from the safearchive reader's `Next()`; compute `fPath`, add
the declared size to the running total and check `fileSizeLimit`; then
either create a directory (queueing its deferred fix-up) or ensure the
parent directory exists, enforce single-file mode, copy the content with
byte cap `fileSizeLimit`, and set the file's times (falling back to
`now` for non-positive recorded times). -/
def untarStep (dst src : String) (dir : Bool) (umask : Int)
    (fileSizeLimit : Int) (now : Int) (h0 : Header) (st1 : LoopSt) :
    StepRes :=
  if isXH h0 then .cont [] st1
  else
    let h : Header := { h0 with name := sanitizeName h0.name }
    let fPath := if dir then goJoin dst h.name else dst
    let newSize := st1.fileSize + h.size
    let st2 := { st1 with fileSize := newSize }
    if fileSizeLimit > 0 ∧ newSize > fileSizeLimit then
      .halt [] (.sizeLimitExceeded fileSizeLimit newSize)
    else if h.typeflag = .dir then
      if ¬ dir then .halt [] (.expectedFile src fPath)
      else .cont [.mkdirAll fPath umask]
        { st2 with dirHeaders := st2.dirHeaders ++ [h] }
    else
      let parentAct : TarAction := .mkdirAll (goDir fPath) umask
      if ¬ dir ∧ st2.finished then .halt [parentAct] (.moreThanOneFile src)
      else
        let aT := if h.accessTime > 0 then h.accessTime else now
        let mT := if h.modTime > 0 then h.modTime else now
        .cont [parentAct, .copyFile fPath umask fileSizeLimit,
          .chtimes fPath aT mT] { st2 with finished := true }

/-- The entry loop of `untar`. The input list models the sequence of
headers the tar stream yields; the end of the list is `io.EOF`. Each
iteration first bumps and checks `filesCount` (in the source this
happens at the top of the loop, before `tarReader.Next()`, so the
iteration that discovers EOF is also counted); at EOF it fails on an
empty archive or runs the deferred fix-up pass; otherwise it processes
the header through `untarStep`. Returns the action trace emitted before
returning, and the error if any. -/
def untarLoop (dst src : String) (dir : Bool) (umask : Int)
    (fileSizeLimit filesLimit : Int) (now : Int) :
    List Header → LoopSt → List TarAction × Option UntarError
  | [], st =>
    let st1 := bumpCount filesLimit st
    if filesLimit > 0 ∧ st1.filesCount > filesLimit then
      ([], some (.tooManyFiles st1.filesCount filesLimit))
    else if ¬ st1.finished then ([], some (.emptyArchive src))
    else (fixupActions dst now st1.dirHeaders, none)
  | h0 :: rest, st =>
    let st1 := bumpCount filesLimit st
    if filesLimit > 0 ∧ st1.filesCount > filesLimit then
      ([], some (.tooManyFiles st1.filesCount filesLimit))
    else
      match untarStep dst src dir umask fileSizeLimit now h0 st1 with
      | .halt acts e => (acts, some e)
      | .cont acts st2 =>
        let r := untarLoop dst src dir umask fileSizeLimit filesLimit now
          rest st2
        (acts ++ r.1, r.2)

/-- `untar(input, dst, src, dir, umask, fileSizeLimit, filesLimit)` from
`expand/tar/tar.go`, with the decoded header sequence as input and the
wall clock `now` (`time.Now()` in Unix seconds) as a parameter. -/
def untar (entries : List Header) (dst src : String) (dir : Bool)
    (umask : Int) (fileSizeLimit filesLimit : Int) (now : Int) :
    List TarAction × Option UntarError :=
  untarLoop dst src dir umask fileSizeLimit filesLimit now entries
    ⟨false, [], 0, 0⟩

/-! ## `expand/expander.go`: the expander registry -/

/-- An expander as seen by the registry: its `Matcher` predicate
(behavior-carrying; the `Expand` side is irrelevant to registry
semantics) plus a tag so distinct registered expanders are
distinguishable values. -/
structure ExpanderV where
  tag : String
  matcher : String → Bool

/-- `RegisterExpander` from expander.go: `expanders = append(expanders, e)`. -/
def RegisterExpander (expanders : List ExpanderV) (e : ExpanderV) :
    List ExpanderV :=
  expanders ++ [e]

/-- `GetExpander` from expander.go: scan the registered list in order and
return the first expander whose `Matcher` accepts the extension, `none`
(Go `nil`) when no expander matches. -/
def GetExpander (expanders : List ExpanderV) (extension : String) :
    Option ExpanderV :=
  expanders.find? (fun e => e.matcher extension)

/-! ## The single-file bzip2 expander (`Bzip2Expander.Expand`) -/

/-- Effects and errors of `Bzip2Expander.Expand`. `write n` is a
successful `outFile.Write(buffer[:n])` of one decompressed chunk. -/
inductive BzAction where
  | mkdirAll (path : String) (mode : Int)
  | openTrunc (path : String)
  | write (n : Nat)
deriving DecidableEq, Repr

/-- The terminal error returns of `Bzip2Expander.Expand` that the model
covers (host-IO failures such as an unreadable source are not modelled). -/
inductive BzError where
  | tildeSrc (e : String)
  | tildeDst (e : String)
  | unsupportedMode
  | escapesDestination
  | sizeLimitExceeded (limit : Int)
deriving DecidableEq, Repr

/-- The decompression loop of `Bzip2Expander.Expand`: `chunks` are the
successive positive byte counts returned by `bzipReader.Read` (the final
zero/EOF read ends the list). For each chunk the code first checks
`totalBytes + n > FileSizeLimit` — with no guard for a zero limit — and
only then writes and adds to the total. -/
def bzLoop (fileSizeLimit : Int) : List Nat → Int →
    List BzAction × Option BzError
  | [], _ => ([], none)
  | n :: rest, totalBytes =>
    if n > 0 then
      if totalBytes + (n : Int) > fileSizeLimit then
        ([], some (.sizeLimitExceeded fileSizeLimit))
      else
        let r := bzLoop fileSizeLimit rest (totalBytes + (n : Int))
        (.write n :: r.1, r.2)
    else bzLoop fileSizeLimit rest totalBytes

/-- `Bzip2Expander.Expand(ctx, src, dst, dir, umask)`: tilde-expand both
paths, reject directory mode, compute the output file path, reject it if
it contains a `..` component, create its parent directories, truncate-
open it, then run the chunked decompression loop against
`FileSizeLimit`. `homeDir` stands for `os.UserHomeDir()`; `chunks` are
the decompressed read sizes the bzip2 stream yields. -/
def bzip2Expand (homeDir : Except String String) (fileSizeLimit : Int)
    (src dst : String) (dir : Bool) (umask : Int) (chunks : List Nat) :
    List BzAction × Option BzError :=
  match ExpandTilde homeDir src with
  | .error e => ([], some (.tildeSrc e))
  | .ok src1 =>
    match ExpandTilde homeDir dst with
    | .error e => ([], some (.tildeDst e))
    | .ok dst1 =>
      if dir then ([], some .unsupportedMode)
      else
        let outputFile := if goBase dst1 = "" then goJoin dst1 (goBase src1)
          else dst1
        if ContainsDotDot outputFile then ([], some .escapesDestination)
        else
          let r := bzLoop fileSizeLimit chunks 0
          (.mkdirAll (goDir outputFile) umask :: .openTrunc outputFile ::
            r.1, r.2)

/-! ## Spec-level helper functions used by the claim statements -/

/-- The path a filesystem action targets. -/
def TarAction.path : TarAction → String
  | .mkdirAll p _ => p
  | .copyFile p _ _ => p
  | .chtimes p _ _ => p
  | .chmod p _ => p

/-- Whether an action is a `CopyReader` file-content write. -/
def TarAction.isCopy : TarAction → Bool
  | .copyFile _ _ _ => true
  | _ => false

/-- Whether an action is a deferred directory `Chmod` fix-up. -/
def TarAction.isChmod : TarAction → Bool
  | .chmod _ _ => true
  | _ => false

/-- The byte cap of a `copyFile` action. -/
def TarAction.copyCap : TarAction → Option Int
  | .copyFile _ _ cap => some cap
  | _ => none

/-- The running declared-size totals of `untar`, one per non-extended
header, starting from `acc`. -/
def runningTotals (acc : Int) : List Header → List Int
  | [] => []
  | h :: rest =>
    if isXH h then runningTotals acc rest
    else (acc + h.size) :: runningTotals (acc + h.size) rest

/-- The first entry whose declared size pushes the running total (from
`acc`) above the limit: returns the entries strictly before it, the
entry itself, and the total at that entry. -/
def firstCross (fileSizeLimit acc : Int) :
    List Header → Option (List Header × Header × Int)
  | [] => none
  | h :: rest =>
    if isXH h then
      match firstCross fileSizeLimit acc rest with
      | none => none
      | some (pre, c, t) => some (h :: pre, c, t)
    else if acc + h.size > fileSizeLimit then some ([], h, acc + h.size)
    else
      match firstCross fileSizeLimit (acc + h.size) rest with
      | none => none
      | some (pre, c, t) => some (h :: pre, c, t)

/-- The number of entries the engine treats as files (neither extended
headers nor directories). -/
def regCount (hs : List Header) : Nat :=
  (hs.filter (fun h => ¬ isXH h ∧ h.typeflag ≠ .dir)).length

/-- A relative name is traversal-free when no `/`-separated component is
`".."`. -/
def noDotDot (s : String) : Bool :=
  (splitSlash s).all (· ≠ "..")

/-! ## Concrete fixtures used by counterexamples and witnesses -/

/-- A tar header named with a parent-traversal component. -/
def hdrDotDot : Header := ⟨"../../etc/passwd", .reg, 0, 420, 0, 0⟩

/-- A plain regular-file header of declared size 0. -/
def hdrA : Header := ⟨"a", .reg, 0, 420, 0, 0⟩

/-- A regular-file header of declared size 3. -/
def hdrSz3 : Header := ⟨"a", .reg, 3, 420, 0, 0⟩

/-- A regular-file header of declared size 4. -/
def hdrSz4 : Header := ⟨"b", .reg, 4, 420, 0, 0⟩

/-- A pax extended-header pseudo-entry. -/
def hdrPax : Header := ⟨"pax", .xHeader, 0, 0, 0, 0⟩

/-- A directory header. -/
def hdrDir : Header := ⟨"sub", .dir, 0, 493, 10, 20⟩

/-- A symlink-resolution function (standing for `filepath.EvalSymlinks`
on a filesystem where `/link` is a symbolic link to `/real` and every
other path is link-free). -/
def evLink : String → Except String String :=
  fun s => if s = "/link" then .ok "/real" else .ok s

/-! ## C1 -/

/-- C1 claims that a tar entry whose name contains a `..` component
makes `untar` fail with a PathEscape error and write nothing for that
entry. This is false: at the concrete archive `[../../etc/passwd]`
(dir mode, no limits) `untar` succeeds and writes the entry — the
safearchive reader sanitized the name to `etc/passwd`, and the file
landed at `/dst/etc/passwd` inside the destination root. -/
theorem c1_dotdot_counterexample :
    (untar [hdrDotDot] "/dst" "" true 493 0 0 100).2 = none ∧
    (untar [hdrDotDot] "/dst" "" true 493 0 0 100).1 =
      [.mkdirAll "/dst/etc" 493, .copyFile "/dst/etc/passwd" 493 0,
       .chtimes "/dst/etc/passwd" 100 100] := by
  decide

/-! ## C3 -/

/-- C3 claims `untar` fails with the entry-count error iff the number of
non-extended-header entries exceeds FilesLimit, that pax headers are not
counted, and that an archive with exactly FilesLimit entries succeeds.
The code increments and checks the counter at the top of every loop
iteration, before `tarReader.Next()`: the iteration that would discover
EOF is counted, so an archive with exactly FilesLimit = 1 entries fails
with the count error, and an archive holding a single pax header (zero
countable entries) fails the same way — pax headers are counted. -/
theorem c3_exact_limit_fails :
    (untar [hdrA] "/d" "" true 493 0 1 5).2 =
      some (.tooManyFiles 2 1) ∧
    (untar [hdrPax] "/d" "" true 493 0 1 5).2 =
      some (.tooManyFiles 2 1) := by
  decide

/-! ## C8 -/

/-- C8 claims the cap passed to `CopyReader` is the remaining budget
(FileSizeLimit minus previously accumulated declared sizes). At the
concrete archive of two files of declared sizes 3 and 4 with
FileSizeLimit 10, both calls receive cap 10 — the second call's cap is
the full limit, not the remaining budget 10 − 3 = 7. -/
theorem c8_full_limit_counterexample :
    ((untar [hdrSz3, hdrSz4] "/d" "" true 493 10 0 5).1.filterMap
      TarAction.copyCap) = [10, 10] ∧ (10 : Int) - 3 ≠ 10 := by
  decide

/-! ## C6 -/

/-- C6 claims `IsSafePath` symlink-resolves BOTH the candidate and the
root and accepts exactly the strict descendants of the resolved root.
Counterexample: with `/link` a symlink to `/real`, the candidate
`/real/file` is a strict descendant of the resolved root of `/link`
(namely `/real`), as `resolveWithinRootSpec` — the spec's description —
confirms; yet `IsSafePath` rejects it, because it never resolves
symlinks in the root and compares against the literal `/link/`. -/
theorem c6_root_not_resolved_counterexample :
    IsSafePath evLink "/" "/real/file" "/link" =
      .error "illegal file path: /real/file" ∧
    strictDescendant "/real/file" "/real" = true ∧
    resolveWithinRootSpec evLink "/" "/real/file" "/link" = .ok true := by
  refine ⟨by rfl, by decide, by rfl⟩

/-! ## Supporting lemmas about the untar loop -/

/-- `bumpCount` does not change the `finished` flag. -/
lemma bumpCount_finished (filesLimit : Int) (st : LoopSt) :
    (bumpCount filesLimit st).finished = st.finished := by
  unfold bumpCount; split <;> rfl

/-- `bumpCount` does not change the deferred directory queue. -/
lemma bumpCount_dirHeaders (filesLimit : Int) (st : LoopSt) :
    (bumpCount filesLimit st).dirHeaders = st.dirHeaders := by
  unfold bumpCount; split <;> rfl

/-- `bumpCount` does not change the running size total. -/
lemma bumpCount_fileSize (filesLimit : Int) (st : LoopSt) :
    (bumpCount filesLimit st).fileSize = st.fileSize := by
  unfold bumpCount; split <;> rfl

/-- The deferred fix-up pass performs no `CopyReader` calls. -/
lemma fixupActions_no_copy (dst : String) (now : Int) :
    ∀ (l : List Header) (a : TarAction), a ∈ fixupActions dst now l →
      a.isCopy = false := by
  intro l
  induction l with
  | nil => intro a ha; simp [fixupActions] at ha
  | cons h rest ih =>
    intro a ha
    simp only [fixupActions, List.mem_cons] at ha
    rcases ha with rfl | rfl | ha
    · rfl
    · rfl
    · exact ih a ha

/-- The fix-up pass contributes no byte caps: it copies nothing. -/
lemma fixupActions_filterMap_copyCap (dst : String) (now : Int) :
    ∀ (l : List Header),
      (fixupActions dst now l).filterMap TarAction.copyCap = [] := by
  intro l
  induction l with
  | nil => simp [fixupActions]
  | cons h rest ih => simp [fixupActions, TarAction.copyCap, ih]

/-- A halting step emits no `CopyReader` call. -/
lemma untarStep_halt_copyCap (dst src : String) (dir : Bool)
    (umask fileSizeLimit now : Int) (h0 : Header) (st1 : LoopSt) :
    ∀ (acts : List TarAction) (e : UntarError),
      untarStep dst src dir umask fileSizeLimit now h0 st1 = .halt acts e →
        acts.filterMap TarAction.copyCap = [] := by
  intro acts e h
  unfold untarStep at h
  dsimp only [] at h
  split_ifs at h <;>
    first
      | exact StepRes.noConfusion h
      | (obtain ⟨h1, -⟩ := StepRes.halt.inj h; subst h1; rfl)

/-- A continuing step's `CopyReader` calls all carry the full
`fileSizeLimit` as their cap. -/
lemma untarStep_cont_copyCap (dst src : String) (dir : Bool)
    (umask fileSizeLimit now : Int) (h0 : Header) (st1 : LoopSt) :
    ∀ (acts : List TarAction) (st2 : LoopSt),
      untarStep dst src dir umask fileSizeLimit now h0 st1 = .cont acts st2 →
        ∀ c ∈ acts.filterMap TarAction.copyCap, c = fileSizeLimit := by
  intro acts st2 h
  unfold untarStep at h
  dsimp only [] at h
  split_ifs at h <;>
    first
      | exact StepRes.noConfusion h
      | (obtain ⟨h1, -⟩ := StepRes.cont.inj h; subst h1;
         intro c hc; simp [TarAction.copyCap] at hc; try exact hc)

/-- With `fileSizeLimit = 0` a step never halts with the size-limit
error. -/
lemma untarStep_no_size_zero (dst src : String) (dir : Bool)
    (umask now : Int) (h0 : Header) (st1 : LoopSt) :
    ∀ (acts : List TarAction) (l t : Int),
      untarStep dst src dir umask 0 now h0 st1 ≠
        .halt acts (.sizeLimitExceeded l t) := by
  intro acts l t h
  unfold untarStep at h
  dsimp only [] at h
  split_ifs at h <;>
    first
      | exact StepRes.noConfusion h
      | (obtain ⟨-, h2⟩ := StepRes.halt.inj h; exact UntarError.noConfusion h2)
      | simp_all

/-- A continuing step extends the deferred queue by at most the current
(sanitized) header. -/
lemma untarStep_cont_dirHeaders (dst src : String) (dir : Bool)
    (umask fileSizeLimit now : Int) (h0 : Header) (st1 : LoopSt) :
    ∀ (acts : List TarAction) (st2 : LoopSt),
      untarStep dst src dir umask fileSizeLimit now h0 st1 = .cont acts st2 →
        st2.dirHeaders = st1.dirHeaders ∨
          st2.dirHeaders = st1.dirHeaders ++
            [{ h0 with name := sanitizeName h0.name }] := by
  intro acts st2 h
  unfold untarStep at h
  dsimp only [] at h
  split_ifs at h <;>
    first
      | exact StepRes.noConfusion h
      | (obtain ⟨-, h2⟩ := StepRes.cont.inj h; subst h2; simp)

/-- Every `CopyReader` call the loop emits carries the full
`fileSizeLimit` as its byte cap. -/
lemma untarLoop_copyCap (dst src : String) (dir : Bool)
    (umask fileSizeLimit filesLimit now : Int) :
    ∀ (entries : List Header) (st : LoopSt) (c : Int),
      c ∈ ((untarLoop dst src dir umask fileSizeLimit filesLimit now
        entries st).1.filterMap TarAction.copyCap) → c = fileSizeLimit := by
  intro entries
  induction entries with
  | nil =>
    intro st c hc
    simp only [untarLoop] at hc
    split_ifs at hc
    · simp at hc
    · simp only [List.mem_filterMap] at hc
      obtain ⟨a, ha, hcap⟩ := hc
      have ha2 : a ∈ fixupActions dst now (bumpCount filesLimit st).dirHeaders :=
        ha
      have hnc := fixupActions_no_copy dst now _ a ha2
      cases a <;> simp [TarAction.copyCap] at hcap <;>
        simp [TarAction.isCopy] at hnc
    · simp at hc
  | cons h0 rest ih =>
    intro st c hc
    simp only [untarLoop] at hc
    split_ifs at hc
    · simp at hc
    · cases hres : untarStep dst src dir umask fileSizeLimit now h0
        (bumpCount filesLimit st) with
      | halt acts e =>
        simp only [hres] at hc
        rw [untarStep_halt_copyCap dst src dir umask fileSizeLimit now h0
          (bumpCount filesLimit st) acts e hres] at hc
        exact absurd hc (List.not_mem_nil c)
      | cont acts st2 =>
        simp only [hres, List.filterMap_append] at hc
        rcases List.mem_append.mp hc with hc | hc
        · exact untarStep_cont_copyCap dst src dir umask fileSizeLimit now h0
            (bumpCount filesLimit st) acts st2 hres c hc
        · exact ih st2 c hc

/-- With `fileSizeLimit = 0` the loop never returns the size-limit
error. -/
lemma untarLoop_no_size_error_zero (dst src : String) (dir : Bool)
    (umask filesLimit now : Int) :
    ∀ (entries : List Header) (st : LoopSt) (l t : Int),
      (untarLoop dst src dir umask 0 filesLimit now entries st).2 ≠
        some (.sizeLimitExceeded l t) := by
  intro entries
  induction entries with
  | nil =>
    intro st l t
    simp only [untarLoop]
    split_ifs <;> simp
  | cons h0 rest ih =>
    intro st l t
    simp only [untarLoop]
    split_ifs
    · simp
    · cases hres : untarStep dst src dir umask 0 now h0
        (bumpCount filesLimit st) with
      | halt acts e =>
        simp only [hres]
        intro hEq
        have he : e = .sizeLimitExceeded l t := by simpa using hEq
        subst he
        exact untarStep_no_size_zero dst src dir umask now h0
          (bumpCount filesLimit st) acts l t hres
      | cont acts st2 =>
        simp only [hres]
        exact ih st2 l t

/-! ## C2 -/

/-- C2 claims FileSizeLimit = 0 means unlimited for both the tar engine
and the bzip2 expander. The tar half is true: with limit 0 `untar` never
returns the size-limit error. The bzip2 half is false on the code: the
chunk check `totalBytes + n > FileSizeLimit` has no `limit > 0` guard,
so with FileSizeLimit = 0 the very first decompressed byte fails with
the size-limit error. -/
theorem c2_zero_limit :
    (∀ (entries : List Header) (dst src : String) (dir : Bool)
      (umask filesLimit now l t : Int),
      (untar entries dst src dir umask 0 filesLimit now).2 ≠
        some (.sizeLimitExceeded l t)) ∧
    (bzip2Expand (.ok "/home/u") 0 "/s.bz2" "/out" false 493 [1]).2 =
      some (.sizeLimitExceeded 0) := by
  constructor
  · intro entries dst src dir umask filesLimit now l t
    exact untarLoop_no_size_error_zero dst src dir umask filesLimit now
      entries ⟨false, [], 0, 0⟩ l t
  · decide

/-- Witness: the tar half of C2 applied at a concrete archive. -/
theorem c2_zero_limit_witness :
    (untar [hdrSz3] "/d" "" true 493 0 0 7).2 ≠
      some (.sizeLimitExceeded 1 2) :=
  c2_zero_limit.1 [hdrSz3] "/d" "" true 493 0 7 1 2

/-- C8 amended: the byte cap `untar` passes to `CopyReader` is the full
configured FileSizeLimit on every call, not the per-call remaining
budget. -/
theorem c8_cap_is_full_limit (entries : List Header) (dst src : String)
    (dir : Bool) (umask fileSizeLimit filesLimit now : Int) :
    ∀ c ∈ ((untar entries dst src dir umask fileSizeLimit filesLimit
      now).1.filterMap TarAction.copyCap), c = fileSizeLimit :=
  fun c hc => untarLoop_copyCap dst src dir umask fileSizeLimit filesLimit
    now entries ⟨false, [], 0, 0⟩ c hc

/-- Witness: C8's amended theorem applied at the two-file archive with
limit 10, whose second recorded cap is again 10. -/
theorem c8_cap_is_full_limit_witness :
    ((10 : Int) ∈ ((untar [hdrSz3, hdrSz4] "/d" "" true 493 10 0 5).1.filterMap
      TarAction.copyCap)) ∧ (10 : Int) = 10 :=
  ⟨by decide, c8_cap_is_full_limit [hdrSz3, hdrSz4] "/d" "" true 493 10 0 5
    10 (by decide)⟩

/-! ## Split/join lemmas for sanitized names -/

/-- Fields produced by splitting never contain the separator. -/
lemma splitCharAux_sep_notMem (sep : Char) :
    ∀ (l acc : List Char), sep ∉ acc →
      ∀ f ∈ splitCharAux sep l acc, sep ∉ f := by
  intro l
  induction l with
  | nil =>
    intro acc hacc f hf
    simp only [splitCharAux, List.mem_singleton] at hf
    subst hf
    simpa using hacc
  | cons c cs ih =>
    intro acc hacc f hf
    simp only [splitCharAux] at hf
    by_cases hc : c = sep
    · rw [if_pos hc] at hf
      rcases List.mem_cons.mp hf with rfl | hf
      · simpa using hacc
      · exact ih [] (by simp) f hf
    · rw [if_neg hc] at hf
      refine ih (c :: acc) ?_ f hf
      intro hmem
      rcases List.mem_cons.mp hmem with h | h
      · exact hc h.symm
      · exact hacc h

/-- Splitting a list of the form `a ++ sep :: rest` with `sep ∉ a`
yields the first field and the split of the remainder. -/
lemma splitCharAux_append (sep : Char) :
    ∀ (a : List Char), sep ∉ a → ∀ (rest acc : List Char),
      splitCharAux sep (a ++ sep :: rest) acc =
        (acc.reverse ++ a) :: splitCharAux sep rest [] := by
  intro a
  induction a with
  | nil =>
    intro _ rest acc
    simp [splitCharAux]
  | cons c a' ih =>
    intro ha rest acc
    have hc : ¬ c = sep := fun h => ha (h ▸ List.mem_cons_self c a')
    simp only [List.cons_append, splitCharAux, if_neg hc, List.append_eq]
    rw [ih (fun h => ha (List.mem_cons_of_mem c h)) rest (c :: acc)]
    simp

/-- Splitting a separator-free list yields one field. -/
lemma splitCharAux_no_sep (sep : Char) :
    ∀ (a : List Char), sep ∉ a → ∀ (acc : List Char),
      splitCharAux sep a acc = [acc.reverse ++ a] := by
  intro a
  induction a with
  | nil => intro _ acc; simp [splitCharAux]
  | cons c a' ih =>
    intro ha acc
    have hc : ¬ c = sep := fun h => ha (h ▸ List.mem_cons_self c a')
    simp only [splitCharAux, if_neg hc]
    rw [ih (fun h => ha (List.mem_cons_of_mem c h)) (c :: acc)]
    simp

/-- Components obtained from `splitSlash` are slash-free. -/
lemma mem_splitSlash_no_slash (s : String) :
    ∀ c ∈ splitSlash s, '/' ∉ c.data := by
  intro c hc
  simp only [splitSlash, splitChar, List.mem_map] at hc
  obtain ⟨f, hf, rfl⟩ := hc
  exact fun hmem => splitCharAux_sep_notMem '/' s.data [] (by simp) f hf hmem

/-- Splitting the slash-join of nonempty, slash-free components returns
the components. -/
lemma splitSlash_joinSlash :
    ∀ (comps : List String), comps ≠ [] →
      (∀ c ∈ comps, '/' ∉ c.data) →
      splitSlash (joinSlash comps) = comps := by
  intro comps
  induction comps with
  | nil => intro h; exact absurd rfl h
  | cons c cs ih =>
    intro _ hfree
    cases cs with
    | nil =>
      simp only [joinSlash, splitSlash, splitChar]
      rw [splitCharAux_no_sep '/' c.data (hfree c (by simp)) []]
      simp
    | cons c' cs' =>
      have hj : joinSlash (c :: c' :: cs') = c ++ "/" ++ joinSlash (c' :: cs') :=
        rfl
      have hdata : (c ++ "/" ++ joinSlash (c' :: cs')).data
          = c.data ++ '/' :: (joinSlash (c' :: cs')).data := by
        rw [String.data_append, String.data_append]
        simp
      simp only [splitSlash, splitChar, hj, hdata]
      rw [splitCharAux_append '/' c.data (hfree c (by simp)) _ []]
      have hrest := ih (by simp) (fun x hx => hfree x (List.mem_cons_of_mem c hx))
      simp only [splitSlash, splitChar] at hrest
      simp [hrest]

/-- The safearchive sanitization leaves no `..` component in a name. -/
lemma noDotDot_sanitizeName (s : String) : noDotDot (sanitizeName s) = true := by
  unfold sanitizeName noDotDot
  by_cases h : (splitSlash s).filter (fun c => ¬ dropComp c) = []
  · rw [h]; decide
  · rw [splitSlash_joinSlash _ h ?free]
    · rw [List.all_eq_true]
      intro x hx
      have hpx : ¬ (x = "" ∨ x = "." ∨ x = "..") := by
        simpa [dropComp] using List.of_mem_filter hx
      simp only [ne_eq, decide_eq_true_eq]
      exact fun hxe => hpx (Or.inr (Or.inr hxe))
    case free =>
      intro c hc
      exact mem_splitSlash_no_slash s c (List.mem_of_mem_filter hc)

/-- An action targets a path inside `dst`: the join of `dst` with a
traversal-free relative name, or that joined path's parent directory. -/
def underDst (dst : String) (a : TarAction) : Prop :=
  ∃ rel, noDotDot rel = true ∧
    (a.path = goJoin dst rel ∨ a.path = goDir (goJoin dst rel))

/-- Fix-up actions target the join of `dst` with a queued directory
name. -/
lemma fixupActions_paths (dst : String) (now : Int) :
    ∀ (l : List Header), (∀ h ∈ l, noDotDot h.name = true) →
      ∀ a ∈ fixupActions dst now l, underDst dst a := by
  intro l
  induction l with
  | nil => intro _ a ha; simp [fixupActions] at ha
  | cons h rest ih =>
    intro hinv a ha
    simp only [fixupActions, List.mem_cons] at ha
    rcases ha with rfl | rfl | ha
    · exact ⟨h.name, hinv h (by simp), Or.inl rfl⟩
    · exact ⟨h.name, hinv h (by simp), Or.inl rfl⟩
    · exact ih (fun x hx => hinv x (List.mem_cons_of_mem h hx)) a ha

/-- In directory mode, a halting step's emitted actions all stay under
the destination. -/
lemma untarStep_halt_underDst (dst src : String)
    (umask fileSizeLimit now : Int) (h0 : Header) (st1 : LoopSt) :
    ∀ (acts : List TarAction) (e : UntarError),
      untarStep dst src true umask fileSizeLimit now h0 st1 = .halt acts e →
        ∀ a ∈ acts, underDst dst a := by
  intro acts e h
  unfold untarStep at h
  dsimp only [] at h
  split_ifs at h <;>
    first
      | exact StepRes.noConfusion h
      | (obtain ⟨h1, -⟩ := StepRes.halt.inj h; subst h1;
         intro a ha
         first
           | exact absurd ha (List.not_mem_nil a)
           | (exfalso; simp_all))
      | (exfalso; simp_all)

/-- In directory mode, a continuing step's emitted actions all stay
under the destination. -/
lemma untarStep_cont_underDst (dst src : String)
    (umask fileSizeLimit now : Int) (h0 : Header) (st1 : LoopSt) :
    ∀ (acts : List TarAction) (st2 : LoopSt),
      untarStep dst src true umask fileSizeLimit now h0 st1 = .cont acts st2 →
        ∀ a ∈ acts, underDst dst a := by
  intro acts st2 h
  unfold untarStep at h
  dsimp only [] at h
  split_ifs at h <;>
    first
      | exact StepRes.noConfusion h
      | exact absurd rfl ‹¬ (true = true)›
      | (obtain ⟨h1, -⟩ := StepRes.cont.inj h; subst h1;
         intro a ha
         first
           | exact absurd ha (List.not_mem_nil a)
           | (simp only [List.mem_cons, List.not_mem_nil, or_false] at ha
              rcases ha with rfl | rfl | rfl <;>
                (refine ⟨sanitizeName h0.name,
                  noDotDot_sanitizeName h0.name, ?_⟩
                 simp [TarAction.path]))
           | (simp only [List.mem_singleton] at ha
              subst ha
              exact ⟨sanitizeName h0.name, noDotDot_sanitizeName h0.name,
                Or.inl rfl⟩)
           | (exfalso; simp_all))
      | (exfalso; simp_all)

/-- In directory mode, every action emitted by the loop targets the
destination joined with a traversal-free relative name, or the parent
of such a path — provided the queued directory headers already satisfy
the same. -/
lemma untarLoop_paths_under (dst src : String)
    (umask fileSizeLimit filesLimit now : Int) :
    ∀ (entries : List Header) (st : LoopSt),
      (∀ h ∈ st.dirHeaders, noDotDot h.name = true) →
      ∀ a ∈ (untarLoop dst src true umask fileSizeLimit filesLimit now
        entries st).1, underDst dst a := by
  intro entries
  induction entries with
  | nil =>
    intro st hinv a ha
    simp only [untarLoop] at ha
    split_ifs at ha
    · simp at ha
    · have ha2 : a ∈ fixupActions dst now (bumpCount filesLimit st).dirHeaders :=
        ha
      refine fixupActions_paths dst now _ ?_ a ha2
      rw [bumpCount_dirHeaders]
      exact hinv
    · simp at ha
  | cons h0 rest ih =>
    intro st hinv a ha
    have hinv1 : ∀ h ∈ (bumpCount filesLimit st).dirHeaders,
        noDotDot h.name = true := by
      rw [bumpCount_dirHeaders]; exact hinv
    simp only [untarLoop] at ha
    split_ifs at ha
    · simp at ha
    · cases hres : untarStep dst src true umask fileSizeLimit now h0
        (bumpCount filesLimit st) with
      | halt acts e =>
        simp only [hres] at ha
        exact untarStep_halt_underDst dst src umask fileSizeLimit now h0
          (bumpCount filesLimit st) acts e hres a ha
      | cont acts st2 =>
        simp only [hres] at ha
        rcases List.mem_append.mp ha with hmem | hmem
        · exact untarStep_cont_underDst dst src umask fileSizeLimit now h0
            (bumpCount filesLimit st) acts st2 hres a hmem
        · refine ih st2 ?_ a hmem
          intro x hx
          rcases untarStep_cont_dirHeaders dst src true umask fileSizeLimit
            now h0 (bumpCount filesLimit st) acts st2 hres with heq | heq
          · rw [heq] at hx; exact hinv1 x hx
          · rw [heq] at hx
            rcases List.mem_append.mp hx with hx | hx
            · exact hinv1 x hx
            · rcases List.mem_singleton.mp hx with rfl
              exact noDotDot_sanitizeName h0.name

/-- C1 amended: `untar` raises no path-escape error for `..` names (see
the counterexample); instead the safearchive reader sanitizes every
entry name, and in directory mode each filesystem action of `untar`
targets the destination joined with a relative name containing no `..`
component (or the parent directory of such a path) — so no file is
created outside the destination root. -/
theorem c1_paths_stay_under_destination (entries : List Header)
    (dst src : String) (umask fileSizeLimit filesLimit now : Int) :
    ∀ a ∈ (untar entries dst src true umask fileSizeLimit filesLimit
      now).1,
      ∃ rel, noDotDot rel = true ∧
        (a.path = goJoin dst rel ∨ a.path = goDir (goJoin dst rel)) :=
  fun a ha =>
    untarLoop_paths_under dst src umask fileSizeLimit filesLimit now
      entries ⟨false, [], 0, 0⟩ (by intro h hh; simp at hh) a ha

/-- Witness: the amended C1 theorem applied to the `../../etc/passwd`
archive, at the concrete `CopyReader` action it emits. -/
theorem c1_paths_stay_under_destination_witness :
    (TarAction.copyFile "/dst/etc/passwd" 493 0 ∈
      (untar [hdrDotDot] "/dst" "" true 493 0 0 100).1) ∧
    (∃ rel, noDotDot rel = true ∧
      ((TarAction.copyFile "/dst/etc/passwd" 493 0).path = goJoin "/dst" rel ∨
       (TarAction.copyFile "/dst/etc/passwd" 493 0).path =
         goDir (goJoin "/dst" rel))) :=
  ⟨by decide,
   c1_paths_stay_under_destination [hdrDotDot] "/dst" "" 493 0 0 100
     (TarAction.copyFile "/dst/etc/passwd" 493 0) (by decide)⟩

/-! ## Step outcome equations (used by the size-limit and structure
claims) -/

/-- `bumpCount` with `filesLimit = 0` is the identity. -/
lemma bumpCount_zero (st : LoopSt) : bumpCount 0 st = st := by
  simp [bumpCount]

/-- An extended header is skipped: no actions, unchanged state. -/
lemma untarStep_xh (dst src : String) (dir : Bool)
    (umask fileSizeLimit now : Int) (h0 : Header) (st1 : LoopSt)
    (hx : isXH h0 = true) :
    untarStep dst src dir umask fileSizeLimit now h0 st1 = .cont [] st1 := by
  simp [untarStep, hx]

/-- A non-extended header whose declared size pushes the running total
over a positive limit halts with the size-limit error before emitting
any action. -/
lemma untarStep_size (dst src : String) (dir : Bool)
    (umask fileSizeLimit now : Int) (h0 : Header) (st1 : LoopSt)
    (hx : isXH h0 = false)
    (hs : fileSizeLimit > 0 ∧ st1.fileSize + h0.size > fileSizeLimit) :
    untarStep dst src dir umask fileSizeLimit now h0 st1 =
      .halt [] (.sizeLimitExceeded fileSizeLimit
        (st1.fileSize + h0.size)) := by
  simp [untarStep, hx, hs]

/-- A directory entry within limits, in directory mode: create the
directory, queue the sanitized header, add the declared size. -/
lemma untarStep_dir (dst src : String) (umask fileSizeLimit now : Int)
    (h0 : Header) (st1 : LoopSt) (hx : isXH h0 = false)
    (hs : ¬ (fileSizeLimit > 0 ∧ st1.fileSize + h0.size > fileSizeLimit))
    (hd : h0.typeflag = .dir) :
    untarStep dst src true umask fileSizeLimit now h0 st1 =
      .cont [.mkdirAll (goJoin dst (sanitizeName h0.name)) umask]
        { st1 with
          dirHeaders := st1.dirHeaders ++
            [{ h0 with name := sanitizeName h0.name }]
          fileSize := st1.fileSize + h0.size } := by
  simp [untarStep, hx, hs, hd]

/-- A file-like entry within limits, in directory mode: ensure the
parent directory, copy the content with cap `fileSizeLimit`, set the
times, mark `finished`, add the declared size. -/
lemma untarStep_file_true (dst src : String) (umask fileSizeLimit now : Int)
    (h0 : Header) (st1 : LoopSt) (hx : isXH h0 = false)
    (hs : ¬ (fileSizeLimit > 0 ∧ st1.fileSize + h0.size > fileSizeLimit))
    (hd : ¬ h0.typeflag = .dir) :
    untarStep dst src true umask fileSizeLimit now h0 st1 =
      .cont [.mkdirAll (goDir (goJoin dst (sanitizeName h0.name))) umask,
        .copyFile (goJoin dst (sanitizeName h0.name)) umask fileSizeLimit,
        .chtimes (goJoin dst (sanitizeName h0.name))
          (if h0.accessTime > 0 then h0.accessTime else now)
          (if h0.modTime > 0 then h0.modTime else now)]
        { st1 with
          finished := true
          fileSize := st1.fileSize + h0.size } := by
  simp [untarStep, hx, hs, hd]

/-- A step halting with the size-limit error can only come from the
declared-size check: the header is not an extended header, the limit is
positive, and the reported total is the running total plus the entry's
declared size, which exceeds the limit. -/
lemma untarStep_size_inv (dst src : String) (dir : Bool)
    (umask fileSizeLimit now : Int) (h0 : Header) (st1 : LoopSt)
    (acts : List TarAction) (l t : Int) :
    untarStep dst src dir umask fileSizeLimit now h0 st1 =
      .halt acts (.sizeLimitExceeded l t) →
    isXH h0 = false ∧ fileSizeLimit > 0 ∧ t = st1.fileSize + h0.size ∧
      st1.fileSize + h0.size > fileSizeLimit := by
  intro h
  by_cases hx : isXH h0 = true
  · rw [untarStep_xh dst src dir umask fileSizeLimit now h0 st1 hx] at h
    exact StepRes.noConfusion h
  · have hx' : isXH h0 = false := by simpa using hx
    by_cases hs : fileSizeLimit > 0 ∧ st1.fileSize + h0.size > fileSizeLimit
    · rw [untarStep_size dst src dir umask fileSizeLimit now h0 st1 hx' hs]
        at h
      obtain ⟨-, h2⟩ := StepRes.halt.inj h
      exact ⟨hx', hs.1, (UntarError.sizeLimitExceeded.inj h2).2.symm, hs.2⟩
    · unfold untarStep at h
      dsimp only [] at h
      rw [if_neg hx, if_neg hs] at h
      split_ifs at h <;>
        first
          | exact StepRes.noConfusion h
          | (obtain ⟨-, h2⟩ := StepRes.halt.inj h
             exact UntarError.noConfusion h2)

/-- A continuing step either skipped an extended header (state
unchanged) or accounted the entry's declared size. -/
lemma untarStep_cont_fileSize (dst src : String) (dir : Bool)
    (umask fileSizeLimit now : Int) (h0 : Header) (st1 : LoopSt)
    (acts : List TarAction) (st2 : LoopSt) :
    untarStep dst src dir umask fileSizeLimit now h0 st1 = .cont acts st2 →
      (isXH h0 = true ∧ st2 = st1) ∨
      (isXH h0 = false ∧ st2.fileSize = st1.fileSize + h0.size) := by
  intro h
  by_cases hx : isXH h0 = true
  · rw [untarStep_xh dst src dir umask fileSizeLimit now h0 st1 hx] at h
    obtain ⟨-, h2⟩ := StepRes.cont.inj h
    exact Or.inl ⟨hx, h2.symm⟩
  · refine Or.inr ⟨by simpa using hx, ?_⟩
    unfold untarStep at h
    dsimp only [] at h
    rw [if_neg hx] at h
    split_ifs at h <;>
      first
        | exact StepRes.noConfusion h
        | (obtain ⟨-, h2⟩ := StepRes.cont.inj h; subst h2; rfl)

/-- Extended headers do not count as files. -/
lemma regCount_cons_xh (h0 : Header) (l : List Header)
    (hx : isXH h0 = true) : regCount (h0 :: l) = regCount l := by
  simp [regCount, List.filter_cons, hx]

/-- Directory entries do not count as files. -/
lemma regCount_cons_dir (h0 : Header) (l : List Header)
    (hd : h0.typeflag = .dir) : regCount (h0 :: l) = regCount l := by
  simp [regCount, List.filter_cons, hd]

/-- Non-extended, non-directory entries count as files. -/
lemma regCount_cons_file (h0 : Header) (l : List Header)
    (hx : isXH h0 = false) (hd : ¬ h0.typeflag = .dir) :
    regCount (h0 :: l) = regCount l + 1 := by
  simp [regCount, List.filter_cons, hx, hd]

/-- If the running declared-size totals never exceed the limit, the loop
never returns the size-limit error. -/
lemma untarLoop_no_size_of_bounded (dst src : String) (dir : Bool)
    (umask fileSizeLimit filesLimit now : Int) :
    ∀ (entries : List Header) (st : LoopSt),
      (∀ t ∈ runningTotals st.fileSize entries, t ≤ fileSizeLimit) →
      ∀ l t', (untarLoop dst src dir umask fileSizeLimit filesLimit now
        entries st).2 ≠ some (.sizeLimitExceeded l t') := by
  intro entries
  induction entries with
  | nil =>
    intro st _ l t'
    simp only [untarLoop]
    split_ifs <;> simp
  | cons h0 rest ih =>
    intro st htot l t'
    simp only [untarLoop]
    split_ifs
    · simp
    · cases hres : untarStep dst src dir umask fileSizeLimit now h0
        (bumpCount filesLimit st) with
      | halt acts e =>
        simp only [hres]
        intro hEq
        have he : e = .sizeLimitExceeded l t' := by simpa using hEq
        subst he
        obtain ⟨hx, -, -, hgt⟩ := untarStep_size_inv dst src dir umask
          fileSizeLimit now h0 (bumpCount filesLimit st) acts l t' hres
        rw [bumpCount_fileSize] at hgt
        have hle : st.fileSize + h0.size ≤ fileSizeLimit := by
          refine htot (st.fileSize + h0.size) ?_
          simp [runningTotals, hx]
        omega
      | cont acts st2 =>
        simp only [hres]
        refine ih st2 ?_ l t'
        rcases untarStep_cont_fileSize dst src dir umask fileSizeLimit now h0
          (bumpCount filesLimit st) acts st2 hres with ⟨hx, rfl⟩ | ⟨hx, hsz⟩
        · intro t ht
          refine htot t ?_
          rw [bumpCount_fileSize] at ht
          simpa [runningTotals, hx] using ht
        · intro t ht
          refine htot t ?_
          rw [hsz, bumpCount_fileSize] at ht
          simp [runningTotals, hx]
          exact Or.inr ht

/-- With `filesLimit = 0` the count check vanishes and a loop iteration
is the step followed by the rest. -/
lemma untarLoop_cons_zero (dst src : String) (dir : Bool)
    (umask fileSizeLimit now : Int) (h0 : Header) (rest : List Header)
    (st : LoopSt) :
    untarLoop dst src dir umask fileSizeLimit 0 now (h0 :: rest) st =
      (match untarStep dst src dir umask fileSizeLimit now h0 st with
       | .halt acts e => (acts, some e)
       | .cont acts st2 =>
         (acts ++ (untarLoop dst src dir umask fileSizeLimit 0 now rest
           st2).1,
          (untarLoop dst src dir umask fileSizeLimit 0 now rest st2).2)) := by
  simp [untarLoop, bumpCount_zero]

/-- If the declared sizes first cross a positive limit at some entry,
the loop (directory mode, no file-count limit) returns the size-limit
error with the total at that entry, having copied exactly the file
entries that precede it. -/
lemma untarLoop_first_cross (dst src : String) (umask fileSizeLimit now : Int)
    (hpos : 0 < fileSizeLimit) :
    ∀ (entries : List Header) (st : LoopSt) (pre : List Header)
      (c : Header) (t : Int),
      firstCross fileSizeLimit st.fileSize entries = some (pre, c, t) →
      (untarLoop dst src true umask fileSizeLimit 0 now entries st).2 =
          some (.sizeLimitExceeded fileSizeLimit t) ∧
        ((untarLoop dst src true umask fileSizeLimit 0 now entries
          st).1.countP TarAction.isCopy) = regCount pre := by
  intro entries
  induction entries with
  | nil => intro st pre c t hfc; simp [firstCross] at hfc
  | cons h0 rest ih =>
    intro st pre c t hfc
    by_cases hx : isXH h0 = true
    · simp only [firstCross, hx, if_pos] at hfc
      cases hrec : firstCross fileSizeLimit st.fileSize rest with
      | none => rw [hrec] at hfc; simp at hfc
      | some trip =>
        obtain ⟨pre', c', t'⟩ := trip
        rw [hrec] at hfc
        simp only [Option.some.injEq, Prod.mk.injEq] at hfc
        obtain ⟨hpre, hc, ht⟩ := hfc
        subst hpre; subst hc; subst ht
        have IH := ih st pre' c' t' hrec
        rw [untarLoop_cons_zero, untarStep_xh dst src true umask
          fileSizeLimit now h0 st hx]
        exact ⟨IH.1, by
          simp only [List.nil_append]
          rw [IH.2, regCount_cons_xh h0 pre' hx]⟩
    · have hx' : isXH h0 = false := by simpa using hx
      by_cases hcross : st.fileSize + h0.size > fileSizeLimit
      · simp only [firstCross, hx', Bool.false_eq_true, if_false,
          if_pos hcross, Option.some.injEq, Prod.mk.injEq] at hfc
        obtain ⟨hpre, hc, ht⟩ := hfc
        subst hpre; subst ht
        rw [untarLoop_cons_zero, untarStep_size dst src true umask
          fileSizeLimit now h0 st hx' ⟨hpos, hcross⟩]
        exact ⟨rfl, by simp [regCount]⟩
      · have hns : ¬ (fileSizeLimit > 0 ∧
            st.fileSize + h0.size > fileSizeLimit) := fun h => hcross h.2
        simp only [firstCross, hx', Bool.false_eq_true, if_false,
          if_neg hcross] at hfc
        cases hrec : firstCross fileSizeLimit (st.fileSize + h0.size)
          rest with
        | none => rw [hrec] at hfc; simp at hfc
        | some trip =>
          obtain ⟨pre', c', t'⟩ := trip
          rw [hrec] at hfc
          simp only [Option.some.injEq, Prod.mk.injEq] at hfc
          obtain ⟨hpre, hc, ht⟩ := hfc
          subst hpre; subst hc; subst ht
          by_cases hd : h0.typeflag = .dir
          · have hstep := untarStep_dir dst src umask fileSizeLimit now h0
              st hx' hns hd
            have IH := ih { st with
              dirHeaders := st.dirHeaders ++
                [{ h0 with name := sanitizeName h0.name }]
              fileSize := st.fileSize + h0.size } pre' c' t' hrec
            rw [untarLoop_cons_zero, hstep]
            refine ⟨IH.1, ?_⟩
            simp [TarAction.isCopy, regCount_cons_dir h0 pre' hd, IH.2]
          · have hstep := untarStep_file_true dst src umask fileSizeLimit
              now h0 st hx' hns hd
            have IH := ih { st with
              finished := true
              fileSize := st.fileSize + h0.size } pre' c' t' hrec
            rw [untarLoop_cons_zero, hstep]
            refine ⟨IH.1, ?_⟩
            simp [TarAction.isCopy, regCount_cons_file h0 pre' hx' hd,
              IH.2, Nat.add_comm]

/-! ## C4 -/

/-- C4: `untar` (directory mode, file-count limit 0 so no other limit
interferes) keeps a running total of the entries' declared header sizes.
If the totals never exceed a positive FileSizeLimit, no size-limit error
is raised; if some entry's declared size first pushes the total over the
limit, `untar` fails with the size-limit error carrying that total, and
the trace holds exactly one `CopyReader` call per file entry strictly
before the offending entry — none for the offending entry itself, so
the check fires before its content is copied. -/
theorem c4_declared_size_accounting (entries : List Header)
    (dst src : String) (umask now fileSizeLimit : Int)
    (hpos : 0 < fileSizeLimit) :
    ((∀ t ∈ runningTotals 0 entries, t ≤ fileSizeLimit) →
      ∀ l t', (untar entries dst src true umask fileSizeLimit 0 now).2 ≠
        some (.sizeLimitExceeded l t')) ∧
    (∀ pre c t, firstCross fileSizeLimit 0 entries = some (pre, c, t) →
      (untar entries dst src true umask fileSizeLimit 0 now).2 =
          some (.sizeLimitExceeded fileSizeLimit t) ∧
        ((untar entries dst src true umask fileSizeLimit 0 now).1.countP
          TarAction.isCopy) = regCount pre) := by
  constructor
  · intro hb l t'
    exact untarLoop_no_size_of_bounded dst src true umask fileSizeLimit 0
      now entries ⟨false, [], 0, 0⟩ hb l t'
  · intro pre c t hfc
    exact untarLoop_first_cross dst src umask fileSizeLimit now hpos
      entries ⟨false, [], 0, 0⟩ pre c t hfc

/-- Witness: C4 applied to the archive of declared sizes 3 and 4 with
limit 5 — the second entry crosses at total 7, and exactly the first
file was copied. -/
theorem c4_declared_size_accounting_witness :
    ((0:Int) < 5) ∧
    (firstCross 5 0 [hdrSz3, hdrSz4] = some ([hdrSz3], hdrSz4, 7)) ∧
    ((untar [hdrSz3, hdrSz4] "/d" "" true 493 5 0 9).2 =
        some (.sizeLimitExceeded 5 7) ∧
      ((untar [hdrSz3, hdrSz4] "/d" "" true 493 5 0 9).1.countP
        TarAction.isCopy) = regCount [hdrSz3]) :=
  ⟨by decide, by decide,
   (c4_declared_size_accounting [hdrSz3, hdrSz4] "/d" "" 493 9 5
     (by decide)).2 [hdrSz3] hdrSz4 7 (by decide)⟩

/-! ## Single-file mode (dir = false) characterization -/

/-- The non-extended-header entries of an archive. -/
def nonXH (entries : List Header) : List Header :=
  entries.filter (fun h => !(isXH h))

/-- `nonXH` on a cons. -/
lemma nonXH_cons (h0 : Header) (rest : List Header) :
    nonXH (h0 :: rest) =
      if isXH h0 then nonXH rest else h0 :: nonXH rest := by
  cases hx : isXH h0 <;> simp [nonXH, List.filter_cons, hx]

/-- With `filesLimit = 0`, EOF either fails on an empty archive or runs
the fix-ups. -/
lemma untarLoop_nil_zero (dst src : String) (dir : Bool)
    (umask fileSizeLimit now : Int) (st : LoopSt) :
    untarLoop dst src dir umask fileSizeLimit 0 now [] st =
      if st.finished then (fixupActions dst now st.dirHeaders, none)
      else ([], some (.emptyArchive src)) := by
  by_cases hf : st.finished <;> simp [untarLoop, bumpCount_zero, hf]

/-- A directory entry within limits in single-file mode halts with the
expected-a-file error at the literal destination path. -/
lemma untarStep_dir_false (dst src : String) (umask fileSizeLimit now : Int)
    (h0 : Header) (st1 : LoopSt) (hx : isXH h0 = false)
    (hs : ¬ (fileSizeLimit > 0 ∧ st1.fileSize + h0.size > fileSizeLimit))
    (hd : h0.typeflag = .dir) :
    untarStep dst src false umask fileSizeLimit now h0 st1 =
      .halt [] (.expectedFile src dst) := by
  simp [untarStep, hx, hs, hd]

/-- A second file-like entry in single-file mode halts with the
more-than-one-file error, after ensuring the parent directory. -/
lemma untarStep_file_false_finished (dst src : String)
    (umask fileSizeLimit now : Int) (h0 : Header) (st1 : LoopSt)
    (hx : isXH h0 = false)
    (hs : ¬ (fileSizeLimit > 0 ∧ st1.fileSize + h0.size > fileSizeLimit))
    (hd : ¬ h0.typeflag = .dir) (hf : st1.finished = true) :
    untarStep dst src false umask fileSizeLimit now h0 st1 =
      .halt [.mkdirAll (goDir dst) umask] (.moreThanOneFile src) := by
  simp [untarStep, hx, hs, hd, hf]

/-- The first file-like entry in single-file mode writes to the literal
destination path and marks the run finished. -/
lemma untarStep_file_false_fresh (dst src : String)
    (umask fileSizeLimit now : Int) (h0 : Header) (st1 : LoopSt)
    (hx : isXH h0 = false)
    (hs : ¬ (fileSizeLimit > 0 ∧ st1.fileSize + h0.size > fileSizeLimit))
    (hd : ¬ h0.typeflag = .dir) (hf : st1.finished = false) :
    untarStep dst src false umask fileSizeLimit now h0 st1 =
      .cont [.mkdirAll (goDir dst) umask, .copyFile dst umask fileSizeLimit,
        .chtimes dst (if h0.accessTime > 0 then h0.accessTime else now)
          (if h0.modTime > 0 then h0.modTime else now)]
        { st1 with
          finished := true
          fileSize := st1.fileSize + h0.size } := by
  simp [untarStep, hx, hs, hd, hf]

/-- Single-file mode, no countable entries, already finished: the run
ends cleanly (an empty fix-up queue assumed). -/
lemma c5_finished_nil (dst src : String) (umask now : Int) :
    ∀ (entries : List Header) (st : LoopSt), nonXH entries = [] →
      st.finished = true → st.dirHeaders = [] →
      untarLoop dst src false umask 0 0 now entries st = ([], none) := by
  intro entries
  induction entries with
  | nil =>
    intro st _ hf hd
    rw [untarLoop_nil_zero, if_pos hf, hd]
    rfl
  | cons h0 rest ih =>
    intro st hne hf hd
    rw [nonXH_cons] at hne
    have hx : isXH h0 = true := by
      by_contra hx
      rw [if_neg hx] at hne
      exact List.noConfusion hne
    rw [if_pos hx] at hne
    rw [untarLoop_cons_zero, untarStep_xh dst src false umask 0 now h0 st hx]
    simpa using ih st hne hf hd

/-- Single-file mode, no countable entries, nothing written: the run
fails with the empty-archive error. -/
lemma c5_empty (dst src : String) (umask now : Int) :
    ∀ (entries : List Header) (st : LoopSt), nonXH entries = [] →
      st.finished = false →
      untarLoop dst src false umask 0 0 now entries st =
        ([], some (.emptyArchive src)) := by
  intro entries
  induction entries with
  | nil =>
    intro st _ hf
    rw [untarLoop_nil_zero, if_neg (by simp [hf])]
  | cons h0 rest ih =>
    intro st hne hf
    rw [nonXH_cons] at hne
    have hx : isXH h0 = true := by
      by_contra hx
      rw [if_neg hx] at hne
      exact List.noConfusion hne
    rw [if_pos hx] at hne
    rw [untarLoop_cons_zero, untarStep_xh dst src false umask 0 now h0 st hx]
    simpa using ih st hne hf

/-- Single-file mode: if the first countable entry is a directory, the
run fails with the expected-a-file error. -/
lemma c5_first_dir (dst src : String) (umask now : Int) :
    ∀ (entries : List Header) (st : LoopSt) (h : Header) (tl : List Header),
      nonXH entries = h :: tl → h.typeflag = .dir →
      (untarLoop dst src false umask 0 0 now entries st).2 =
        some (.expectedFile src dst) := by
  intro entries
  induction entries with
  | nil => intro st h tl hne _; exact absurd hne (by simp [nonXH])
  | cons h0 rest ih =>
    intro st h tl hne hd
    rw [nonXH_cons] at hne
    by_cases hx : isXH h0 = true
    · rw [if_pos hx] at hne
      rw [untarLoop_cons_zero,
        untarStep_xh dst src false umask 0 now h0 st hx]
      simpa using ih st h tl hne hd
    · have hx' : isXH h0 = false := by simpa using hx
      rw [if_neg hx] at hne
      obtain ⟨rfl, rfl⟩ := List.cons.inj hne
      rw [untarLoop_cons_zero,
        untarStep_dir_false dst src umask 0 now h0 st hx' (by simp) hd]

/-- Single-file mode: a file-like countable entry after a file has
already been written fails with the more-than-one-file error. -/
lemma c5_second_file (dst src : String) (umask now : Int) :
    ∀ (entries : List Header) (st : LoopSt) (h : Header) (tl : List Header),
      nonXH entries = h :: tl → ¬ h.typeflag = .dir → st.finished = true →
      (untarLoop dst src false umask 0 0 now entries st).2 =
        some (.moreThanOneFile src) := by
  intro entries
  induction entries with
  | nil => intro st h tl hne _ _; exact absurd hne (by simp [nonXH])
  | cons h0 rest ih =>
    intro st h tl hne hd hf
    rw [nonXH_cons] at hne
    by_cases hx : isXH h0 = true
    · rw [if_pos hx] at hne
      rw [untarLoop_cons_zero,
        untarStep_xh dst src false umask 0 now h0 st hx]
      simpa using ih st h tl hne hd hf
    · have hx' : isXH h0 = false := by simpa using hx
      rw [if_neg hx] at hne
      obtain ⟨rfl, rfl⟩ := List.cons.inj hne
      rw [untarLoop_cons_zero, untarStep_file_false_finished dst src umask
        0 now h0 st hx' (by simp) hd hf]

/-- Single-file mode: exactly one countable file-like entry succeeds,
writing to the literal destination path. -/
lemma c5_single_file (dst src : String) (umask now : Int) :
    ∀ (entries : List Header) (st : LoopSt) (h : Header),
      nonXH entries = [h] → ¬ h.typeflag = .dir → st.finished = false →
      st.dirHeaders = [] →
      untarLoop dst src false umask 0 0 now entries st =
        ([.mkdirAll (goDir dst) umask, .copyFile dst umask 0,
          .chtimes dst (if h.accessTime > 0 then h.accessTime else now)
            (if h.modTime > 0 then h.modTime else now)], none) := by
  intro entries
  induction entries with
  | nil => intro st h hne _ _ _; exact absurd hne (by simp [nonXH])
  | cons h0 rest ih =>
    intro st h hne hd hf hdh
    rw [nonXH_cons] at hne
    by_cases hx : isXH h0 = true
    · rw [if_pos hx] at hne
      rw [untarLoop_cons_zero,
        untarStep_xh dst src false umask 0 now h0 st hx]
      simpa using ih st h hne hd hf hdh
    · have hx' : isXH h0 = false := by simpa using hx
      rw [if_neg hx] at hne
      obtain ⟨rfl, htl⟩ := List.cons.inj hne
      rw [untarLoop_cons_zero, untarStep_file_false_fresh dst src umask
        0 now h0 st hx' (by simp) hd hf]
      dsimp only []
      rw [c5_finished_nil dst src umask now rest
        { st with finished := true, fileSize := st.fileSize + h0.size }
        htl rfl hdh]
      rfl

/-- Single-file mode: after the first file-like entry, a further
countable entry fails — a directory with expected-a-file, a file with
more-than-one-file. -/
lemma c5_after_first_file (dst src : String) (umask now : Int) :
    ∀ (entries : List Header) (st : LoopSt) (h1 h2 : Header)
      (tl : List Header),
      nonXH entries = h1 :: h2 :: tl → ¬ h1.typeflag = .dir →
      st.finished = false →
      (untarLoop dst src false umask 0 0 now entries st).2 =
        (if h2.typeflag = .dir then some (.expectedFile src dst)
         else some (.moreThanOneFile src)) := by
  intro entries
  induction entries with
  | nil => intro st h1 h2 tl hne _ _; exact absurd hne (by simp [nonXH])
  | cons h0 rest ih =>
    intro st h1 h2 tl hne hd1 hf
    rw [nonXH_cons] at hne
    by_cases hx : isXH h0 = true
    · rw [if_pos hx] at hne
      rw [untarLoop_cons_zero,
        untarStep_xh dst src false umask 0 now h0 st hx]
      simpa using ih st h1 h2 tl hne hd1 hf
    · have hx' : isXH h0 = false := by simpa using hx
      rw [if_neg hx] at hne
      obtain ⟨rfl, htl⟩ := List.cons.inj hne
      rw [untarLoop_cons_zero, untarStep_file_false_fresh dst src umask
        0 now h0 st hx' (by simp) hd1 hf]
      by_cases hd2 : h2.typeflag = .dir
      · rw [if_pos hd2]
        exact c5_first_dir dst src umask now rest _ h2 tl htl hd2
      · rw [if_neg hd2]
        exact c5_second_file dst src umask now rest _ h2 tl htl hd2 rfl

/-! ## C5 -/

/-- C5: with `dir` false (single-file mode, limits unlimited so no limit
error interferes), `untar` succeeds exactly on archives whose
non-extended entries are one single file-like entry, writing that entry
to the literal destination path; a directory entry fails with the
expected-a-file error, a second file entry fails with the
more-than-one-file error, and an archive with no countable entries
fails with the empty-archive error. -/
theorem c5_single_file_mode (entries : List Header) (dst src : String)
    (umask now : Int) :
    (nonXH entries = [] →
      (untar entries dst src false umask 0 0 now).2 =
        some (.emptyArchive src)) ∧
    (∀ h tl, nonXH entries = h :: tl → h.typeflag = .dir →
      (untar entries dst src false umask 0 0 now).2 =
        some (.expectedFile src dst)) ∧
    (∀ h, nonXH entries = [h] → ¬ h.typeflag = .dir →
      untar entries dst src false umask 0 0 now =
        ([.mkdirAll (goDir dst) umask, .copyFile dst umask 0,
          .chtimes dst (if h.accessTime > 0 then h.accessTime else now)
            (if h.modTime > 0 then h.modTime else now)], none)) ∧
    (∀ h1 h2 tl, nonXH entries = h1 :: h2 :: tl →
      ¬ h1.typeflag = .dir → ¬ h2.typeflag = .dir →
      (untar entries dst src false umask 0 0 now).2 =
        some (.moreThanOneFile src)) ∧
    ((untar entries dst src false umask 0 0 now).2 = none →
      ∃ h, nonXH entries = [h] ∧ ¬ h.typeflag = .dir) := by
  refine ⟨?_, ?_, ?_, ?_, ?_⟩
  · intro hne
    unfold untar
    rw [c5_empty dst src umask now entries ⟨false, [], 0, 0⟩ hne rfl]
  · intro h tl hne hd
    unfold untar
    exact c5_first_dir dst src umask now entries ⟨false, [], 0, 0⟩ h tl hne hd
  · intro h hne hd
    unfold untar
    exact c5_single_file dst src umask now entries ⟨false, [], 0, 0⟩ h hne
      hd rfl rfl
  · intro h1 h2 tl hne hd1 hd2
    unfold untar
    have := c5_after_first_file dst src umask now entries ⟨false, [], 0, 0⟩
      h1 h2 tl hne hd1 rfl
    rw [if_neg hd2] at this
    exact this
  · intro hnone
    cases hl : nonXH entries with
    | nil =>
      exfalso
      unfold untar at hnone
      rw [c5_empty dst src umask now entries ⟨false, [], 0, 0⟩ hl rfl]
        at hnone
      exact Option.noConfusion hnone
    | cons h tl =>
      by_cases hd : h.typeflag = .dir
      · exfalso
        unfold untar at hnone
        rw [c5_first_dir dst src umask now entries ⟨false, [], 0, 0⟩ h tl
          hl hd] at hnone
        exact Option.noConfusion hnone
      · cases tl with
        | nil => exact ⟨h, rfl, hd⟩
        | cons h2 tl2 =>
          exfalso
          unfold untar at hnone
          rw [c5_after_first_file dst src umask now entries
            ⟨false, [], 0, 0⟩ h h2 tl2 hl hd rfl] at hnone
          split_ifs at hnone <;> exact Option.noConfusion hnone

/-- Witness: C5's success case applied to a one-file archive — it
writes to the literal destination path. -/
theorem c5_single_file_mode_witness :
    (nonXH [hdrA] = [hdrA] ∧ ¬ hdrA.typeflag = Typeflag.dir) ∧
    untar [hdrA] "/out" "" false 493 0 0 5 =
      ([.mkdirAll (goDir "/out") 493, .copyFile "/out" 493 0,
        .chtimes "/out" (if hdrA.accessTime > 0 then hdrA.accessTime else 5)
          (if hdrA.modTime > 0 then hdrA.modTime else 5)], none) :=
  ⟨⟨by decide, by decide⟩,
   (c5_single_file_mode [hdrA] "/out" "" 493 5).2.2.1 hdrA (by decide)
     (by decide)⟩

/-! ## C9: deferred directory fix-ups -/

/-- The directory entries of an archive, as queued by the loop: the
non-extended directory headers, names sanitized, in encounter order. -/
def dirsOf : List Header → List Header
  | [] => []
  | h :: rest =>
    if isXH h = false ∧ h.typeflag = .dir then
      { h with name := sanitizeName h.name } :: dirsOf rest
    else dirsOf rest

/-- A continuing step emits no deferred `Chmod` fix-up action. -/
lemma untarStep_cont_noChmod (dst src : String) (dir : Bool)
    (umask fileSizeLimit now : Int) (h0 : Header) (st1 : LoopSt) :
    ∀ (acts : List TarAction) (st2 : LoopSt),
      untarStep dst src dir umask fileSizeLimit now h0 st1 = .cont acts st2 →
        ∀ a ∈ acts, a.isChmod = false := by
  intro acts st2 h
  unfold untarStep at h
  dsimp only [] at h
  split_ifs at h <;>
    first
      | exact StepRes.noConfusion h
      | (obtain ⟨h1, -⟩ := StepRes.cont.inj h; subst h1;
         intro a ha
         first
           | exact absurd ha (List.not_mem_nil a)
           | (simp only [List.mem_cons, List.not_mem_nil, or_false] at ha
              rcases ha with rfl | rfl | rfl <;> rfl)
           | (simp only [List.mem_singleton] at ha; subst ha; rfl))

/-- A continuing step in directory mode appends exactly the queued
directory of this entry (when there is one), preserving the existing
queue order. -/
lemma untarStep_cont_dirs (dst src : String) (umask fileSizeLimit now : Int)
    (h0 : Header) (st1 : LoopSt) :
    ∀ (acts : List TarAction) (st2 : LoopSt),
      untarStep dst src true umask fileSizeLimit now h0 st1 = .cont acts st2 →
        (¬ (isXH h0 = false ∧ h0.typeflag = .dir) ∧
          st2.dirHeaders = st1.dirHeaders) ∨
        ((isXH h0 = false ∧ h0.typeflag = .dir) ∧
          st2.dirHeaders = st1.dirHeaders ++
            [{ h0 with name := sanitizeName h0.name }]) := by
  intro acts st2 h
  by_cases hx : isXH h0 = true
  · rw [untarStep_xh dst src true umask fileSizeLimit now h0 st1 hx] at h
    obtain ⟨-, h2⟩ := StepRes.cont.inj h
    exact Or.inl ⟨fun hc => by simp [hx] at hc, by rw [← h2]⟩
  · have hx' : isXH h0 = false := by simpa using hx
    by_cases hd : h0.typeflag = .dir
    · right
      refine ⟨⟨hx', hd⟩, ?_⟩
      unfold untarStep at h
      dsimp only [] at h
      rw [if_neg hx] at h
      split_ifs at h <;>
        first
          | exact StepRes.noConfusion h
          | (obtain ⟨-, h2⟩ := StepRes.cont.inj h; subst h2; rfl)
          | (exact absurd hd (by assumption))
    · left
      refine ⟨fun hc => hd hc.2, ?_⟩
      unfold untarStep at h
      dsimp only [] at h
      rw [if_neg hx] at h
      split_ifs at h <;>
        first
          | exact StepRes.noConfusion h
          | (obtain ⟨-, h2⟩ := StepRes.cont.inj h; subst h2; rfl)
          | (exact absurd (by assumption) hd)

/-- On success in directory mode, the trace decomposes into a main pass
with no `Chmod` action followed by the deferred fix-ups of the initial
queue and the archive's directory entries, in encounter order. -/
lemma untarLoop_success_decomp (dst src : String)
    (umask fileSizeLimit filesLimit now : Int) :
    ∀ (entries : List Header) (st : LoopSt),
      (untarLoop dst src true umask fileSizeLimit filesLimit now entries
        st).2 = none →
      ∃ m, (untarLoop dst src true umask fileSizeLimit filesLimit now
          entries st).1 =
          m ++ fixupActions dst now (st.dirHeaders ++ dirsOf entries) ∧
        ∀ a ∈ m, a.isChmod = false := by
  intro entries
  induction entries with
  | nil =>
    intro st hnone
    simp only [untarLoop] at hnone ⊢
    by_cases h1 : filesLimit > 0 ∧
        (bumpCount filesLimit st).filesCount > filesLimit
    · rw [if_pos h1] at hnone
      simp at hnone
    · rw [if_neg h1] at hnone ⊢
      by_cases h2 : (bumpCount filesLimit st).finished = true
      · rw [if_neg (fun hcon => hcon h2)] at hnone ⊢
        refine ⟨[], ?_, by simp⟩
        rw [bumpCount_dirHeaders]
        simp [dirsOf]
      · rw [if_pos h2] at hnone
        simp at hnone
  | cons h0 rest ih =>
    intro st hnone
    simp only [untarLoop] at hnone ⊢
    by_cases h1 : filesLimit > 0 ∧
        (bumpCount filesLimit st).filesCount > filesLimit
    · rw [if_pos h1] at hnone
      simp at hnone
    · rw [if_neg h1] at hnone ⊢
      cases hres : untarStep dst src true umask fileSizeLimit now h0
        (bumpCount filesLimit st) with
      | halt acts e =>
        rw [hres] at hnone
        simp at hnone
      | cont acts st2 =>
        rw [hres] at hnone
        dsimp only [] at hnone ⊢
        obtain ⟨m', hm', hchm⟩ := ih st2 hnone
        refine ⟨acts ++ m', ?_, ?_⟩
        · rw [hm', ← List.append_assoc]
          rcases untarStep_cont_dirs dst src umask fileSizeLimit now h0
            (bumpCount filesLimit st) acts st2 hres with ⟨hc, heq⟩ | ⟨hc, heq⟩
          · rw [heq, bumpCount_dirHeaders]
            have hde : dirsOf (h0 :: rest) = dirsOf rest := by
              simp [dirsOf, hc]
            rw [hde]
          · rw [heq, bumpCount_dirHeaders]
            have hde : dirsOf (h0 :: rest) =
                { h0 with name := sanitizeName h0.name } :: dirsOf rest := by
              simp [dirsOf, hc]
            rw [hde]
            simp [List.append_assoc]
        · intro a ha
          rcases List.mem_append.mp ha with ha | ha
          · exact untarStep_cont_noChmod dst src true umask fileSizeLimit
              now h0 (bumpCount filesLimit st) acts st2 hres a ha
          · exact hchm a ha

/-- C9: in every successful directory-mode run of `untar`, the trace is
a main pass containing every `CopyReader` content write and no
directory `Chmod` fix-up, followed by the deferred fix-ups — which
contain no content write — applied to the archive's directory entries
in exactly the order they were encountered. -/
theorem c9_fixups_after_writes_in_order (entries : List Header)
    (dst src : String) (umask fileSizeLimit filesLimit now : Int) :
    (untar entries dst src true umask fileSizeLimit filesLimit now).2 =
      none →
    ∃ m, (untar entries dst src true umask fileSizeLimit filesLimit
        now).1 = m ++ fixupActions dst now (dirsOf entries) ∧
      (∀ a ∈ m, a.isChmod = false) ∧
      (∀ a ∈ fixupActions dst now (dirsOf entries), a.isCopy = false) := by
  intro hnone
  obtain ⟨m, hm, hchm⟩ := untarLoop_success_decomp dst src umask
    fileSizeLimit filesLimit now entries ⟨false, [], 0, 0⟩ hnone
  refine ⟨m, ?_, hchm, fixupActions_no_copy dst now (dirsOf entries)⟩
  simpa using hm

/-- Witness: C9 applied to a successful run containing one directory
and one file. -/
theorem c9_fixups_after_writes_in_order_witness :
    ((untar [hdrDir, hdrA] "/d" "" true 493 0 0 5).2 = none) ∧
    (∃ m, (untar [hdrDir, hdrA] "/d" "" true 493 0 0 5).1 =
        m ++ fixupActions "/d" 5 (dirsOf [hdrDir, hdrA]) ∧
      (∀ a ∈ m, a.isChmod = false) ∧
      (∀ a ∈ fixupActions "/d" 5 (dirsOf [hdrDir, hdrA]),
        a.isCopy = false)) :=
  ⟨by decide,
   c9_fixups_after_writes_in_order [hdrDir, hdrA] "/d" "" 493 0 0 5
     (by decide)⟩

/-! ## C10 -/

/-- In directory mode with unlimited limits, an archive whose countable
entries are all directories creates each directory and still ends with
the empty-archive error: the `finished` flag is set only by file-like
entries. -/
lemma c10_loop (dst src : String) (umask now : Int) :
    ∀ (entries : List Header) (st : LoopSt), st.finished = false →
      (∀ h ∈ entries, isXH h = false → h.typeflag = .dir) →
      untarLoop dst src true umask 0 0 now entries st =
        ((nonXH entries).map (fun h0 =>
          TarAction.mkdirAll (goJoin dst (sanitizeName h0.name)) umask),
         some (.emptyArchive src)) := by
  intro entries
  induction entries with
  | nil =>
    intro st hf _
    rw [untarLoop_nil_zero, if_neg (by simp [hf])]
    simp [nonXH]
  | cons h0 rest ih =>
    intro st hf hall
    by_cases hx : isXH h0 = true
    · rw [untarLoop_cons_zero,
        untarStep_xh dst src true umask 0 now h0 st hx]
      dsimp only []
      rw [ih st hf (fun h hm => hall h (List.mem_cons_of_mem h0 hm))]
      simp [nonXH_cons, hx]
    · have hx' : isXH h0 = false := by simpa using hx
      have hd : h0.typeflag = .dir := hall h0 (List.mem_cons_self h0 rest) hx'
      rw [untarLoop_cons_zero,
        untarStep_dir dst src umask 0 now h0 st hx' (by simp) hd]
      dsimp only []
      rw [ih { st with
        dirHeaders := st.dirHeaders ++
          [{ h0 with name := sanitizeName h0.name }]
        fileSize := st.fileSize + h0.size } hf
        (fun h hm => hall h (List.mem_cons_of_mem h0 hm))]
      simp [nonXH_cons, hx']

/-- C10: an archive (directory mode, unlimited limits) containing at
least one directory entry and no file-like entry creates every
directory on disk — one `MkdirAll` per countable entry, in order — yet
still returns the empty-archive error, because only a file write sets
the `finished` flag. -/
theorem c10_dirs_only_empty_error (entries : List Header)
    (dst src : String) (umask now : Int)
    (hall : ∀ h ∈ entries, isXH h = false → h.typeflag = .dir)
    (hsome : ∃ h ∈ entries, isXH h = false) :
    untar entries dst src true umask 0 0 now =
      ((nonXH entries).map (fun h0 =>
        TarAction.mkdirAll (goJoin dst (sanitizeName h0.name)) umask),
       some (.emptyArchive src)) ∧
    (untar entries dst src true umask 0 0 now).1 ≠ [] := by
  have heq := c10_loop dst src umask now entries ⟨false, [], 0, 0⟩ rfl hall
  constructor
  · exact heq
  · rw [show (untar entries dst src true umask 0 0 now).1 =
      (untarLoop dst src true umask 0 0 now entries ⟨false, [], 0, 0⟩).1
      from rfl, heq]
    obtain ⟨h, hm, hx⟩ := hsome
    have hmem : h ∈ nonXH entries :=
      List.mem_filter.mpr ⟨hm, by simp [hx]⟩
    simp only [ne_eq, List.map_eq_nil]
    exact fun hcon => absurd (hcon ▸ hmem) (List.not_mem_nil h)

/-- Witness: C10 applied to the one-directory archive. -/
theorem c10_dirs_only_empty_error_witness :
    untar [hdrDir] "/d" "" true 493 0 0 5 =
      (((nonXH [hdrDir]).map (fun h0 =>
        TarAction.mkdirAll (goJoin "/d" (sanitizeName h0.name)) 493)),
       some (.emptyArchive "")) ∧
    (untar [hdrDir] "/d" "" true 493 0 0 5).1 ≠ [] :=
  c10_dirs_only_empty_error [hdrDir] "/d" "" 493 5 (by decide)
    ⟨hdrDir, by decide, by decide⟩

/-! ## C6 -/

/-- A cleaned root with a separator appended is never a prefix of the
bare root: the root itself is not its own strict descendant. -/
lemma strHasPre_append_self (q : String) :
    strHasPre q (q ++ "/") = false := by
  by_contra h
  have hb : (q ++ "/").data.isPrefixOf q.data = true := by
    simpa [strHasPre] using h
  have hlen := (List.isPrefixOf_iff_prefix.mp hb).length_le
  rw [String.data_append] at hlen
  simp at hlen

/-- C6 amended: `IsSafePath` makes both paths absolute but
symlink-resolves only the candidate; the root is only lexically
cleaned. It returns true exactly when the symlink-resolved absolute
candidate extends the cleaned absolute root past a separator (a strict
descendant in the string sense); in particular the root itself is
always rejected — but symlinks inside the root are never resolved (see
the counterexample). -/
theorem c6_isSafePath_characterization (ev : String → Except String String)
    (cwd filePath dst : String) :
    (IsSafePath ev cwd filePath dst = .ok true ↔
      ∃ r, ev (goAbs cwd filePath) = .ok r ∧
        strictDescendant r (goClean (goAbs cwd dst)) = true) ∧
    (∀ r, ev (goAbs cwd filePath) = .ok r →
      r = goClean (goAbs cwd dst) →
      IsSafePath ev cwd filePath dst ≠ .ok true) := by
  constructor
  · unfold IsSafePath
    cases hev : ev (goAbs cwd filePath) with
    | error e => simp [hev]
    | ok r =>
      by_cases hp : strHasPre r (goClean (goAbs cwd dst) ++ "/")
      · simp [hev, hp, strictDescendant]
      · simp [hev, hp, strictDescendant]
  · intro r hev heq hok
    unfold IsSafePath at hok
    dsimp only [] at hok
    rw [hev] at hok
    dsimp only [] at hok
    subst heq
    rw [if_neg (by simp [strHasPre_append_self])] at hok
    exact Except.noConfusion hok

/-- Witness: the C6 characterization applied at the link-free
filesystem, a rooted candidate and root. -/
theorem c6_isSafePath_characterization_witness :
    ((IsSafePath (fun s => .ok s) "/" "/a/b" "/a" = .ok true ↔
      ∃ r, (fun s => (.ok s : Except String String)) (goAbs "/" "/a/b") =
          .ok r ∧
        strictDescendant r (goClean (goAbs "/" "/a")) = true) ∧
    (∀ r, (fun s => (.ok s : Except String String)) (goAbs "/" "/a/b") =
        .ok r → r = goClean (goAbs "/" "/a") →
      IsSafePath (fun s => .ok s) "/" "/a/b" "/a" ≠ .ok true)) ∧
    IsSafePath (fun s => .ok s) "/" "/a/b" "/a" = .ok true :=
  ⟨c6_isSafePath_characterization (fun s => .ok s) "/" "/a/b" "/a",
   (c6_isSafePath_characterization (fun s => .ok s) "/" "/a/b"
     "/a").1.mpr ⟨"/a/b", by rfl, by decide⟩⟩

/-! ## C7 -/

/-- `TarExpander.Matcher` from tar.go: substring match against
`tar`, `tgz`, `tbz2`. -/
def tarMatcher (fileName : String) : Bool :=
  ["tar", "tgz", "tbz2"].any (fun ext => strContains fileName ext)

/-- `Bzip2Expander.Matcher` from the bzip2 expander: `bz2` or `bzip2`
substring, but not `tar`. -/
def bzip2Matcher (extension : String) : Bool :=
  (strContains extension "bz2" ∨ strContains extension "bzip2") ∧
    ¬ strContains extension "tar"

/-- The tar expander as a registry value. -/
def tarExpanderV : ExpanderV := ⟨"tar", tarMatcher⟩

/-- The bzip2 expander as a registry value. -/
def bzip2ExpanderV : ExpanderV := ⟨"bzip2", bzip2Matcher⟩

/-- C7: `RegisterExpander` appends (registering twice keeps both
copies — no de-duplication); `GetExpander` returns the
earliest-registered matching expander: an existing match is unaffected
by later registrations, a newly registered expander is consulted only
when nothing earlier matches, `none` is returned exactly when no
registered expander matches, and a returned expander is registered and
matching. -/
theorem c7_registry_first_match (expanders : List ExpanderV)
    (e2 : ExpanderV) (extension : String) :
    ((RegisterExpander (RegisterExpander expanders e2) e2).length =
      expanders.length + 2) ∧
    (∀ e1, GetExpander expanders extension = some e1 →
      GetExpander (RegisterExpander expanders e2) extension = some e1) ∧
    (GetExpander expanders extension = none →
      GetExpander (RegisterExpander expanders e2) extension =
        (if e2.matcher extension then some e2 else none)) ∧
    (GetExpander expanders extension = none ↔
      ∀ e ∈ expanders, e.matcher extension = false) ∧
    (∀ e1, GetExpander expanders extension = some e1 →
      e1 ∈ expanders ∧ e1.matcher extension = true) := by
  refine ⟨?_, ?_, ?_, ?_, ?_⟩
  · simp [RegisterExpander]
  · intro e1 h
    unfold GetExpander RegisterExpander
    unfold GetExpander at h
    rw [List.find?_append, h]
    rfl
  · intro h
    unfold GetExpander RegisterExpander
    unfold GetExpander at h
    rw [List.find?_append, h]
    cases hm : e2.matcher extension <;> simp [List.find?, hm]
  · unfold GetExpander
    simp [List.find?_eq_none]
  · intro e1 h
    unfold GetExpander at h
    exact ⟨List.mem_of_find?_eq_some h,
      @List.find?_some ExpanderV (fun e => e.matcher extension) e1
        expanders h⟩

/-- Witness: C7's priority conjunct at a registry holding the tar
expander — registering the bzip2 expander afterwards does not steal
the `tar.bz2` match from the earlier-registered tar expander. -/
theorem c7_registry_first_match_witness :
    (GetExpander [tarExpanderV] "tar.bz2" = some tarExpanderV) ∧
    GetExpander (RegisterExpander [tarExpanderV] bzip2ExpanderV)
      "tar.bz2" = some tarExpanderV :=
  ⟨by rfl,
   (c7_registry_first_match [tarExpanderV] bzip2ExpanderV "tar.bz2").2.1
     tarExpanderV (by rfl)⟩
